import Mathlib

/-!
A verification development for the repository's two core components:

* `src/repo/generate.rs` — the per-architecture Contents index build
  (flattening per-package file lists, sorting, duplicate detection, and the
  lazy line serializer `ContentIterator` / pull-based `ContentReader`);
* `src/repo/download/request.rs` — the verified download routine `file`
  with its integrity comparison and bounded retry loop;
* `src/config/mod.rs` — the dotted-path configuration `fetch`/`update`.

Byte strings (Rust `&[u8]`, `OsStr` bytes, `String`) are modelled as
`List Char`, one `Char` per byte (all inputs of interest are single-byte
characters, and `Char` comparison on such values coincides with byte
comparison).  Filesystem paths (`PathBuf`) are kept as their raw byte
sequence, as `PathBuf` itself stores them; the component view used by
`PathBuf`'s `Ord` is computed separately below.
-/

namespace Debrep

/-- A raw path: the byte sequence held by a Rust `PathBuf`. -/
abbrev Path := List Char

/-- Split a byte sequence at `/` separators (separators are dropped).
Mirrors the segmentation used by `std::path::Components` on Unix. -/
def splitSlash : List Char → List (List Char)
  | [] => [[]]
  | c :: rest =>
    let r := splitSlash rest
    if c = '/' then [] :: r
    else (c :: r.headD []) :: r.tail

/-- A path component, encoded order-preservingly as a marker byte followed by
the component's bytes.  Rust's `Component` orders
`Prefix < RootDir < CurDir < ParentDir < Normal`, and `Normal` components
compare byte-wise; prefixing distinct marker bytes (1,2,3,4) and comparing
the encodings lexicographically yields exactly that order (markers differ
iff the variants differ, and payload bytes are only reached between two
`Normal` components). -/
def rootComp : List Char := [Char.ofNat 1]

/-- Encoding of Rust's `Component::CurDir`. -/
def curComp : List Char := [Char.ofNat 2]

/-- Encoding of Rust's `Component::ParentDir`. -/
def parentComp : List Char := [Char.ofNat 3]

/-- Encoding of Rust's `Component::Normal s`. -/
def normalComp (s : List Char) : List Char := Char.ofNat 4 :: s

/-- The component view of a path, as computed by `std::path::Path::components`
on Unix: a leading `/` yields a root component; a leading `.` component is
kept (only for relative paths); empty and further `.` segments are dropped;
`..` segments become parent components; everything else is a normal
component. -/
def pathComponents (p : Path) : List (List Char) :=
  let parts := splitSlash p
  let isAbs : Bool := p.head? = some '/'
  (if isAbs then [rootComp] else []) ++
    (if ¬ isAbs ∧ parts.head? = some ['.'] then [curComp] else []) ++
    ((parts.filter fun s => ¬ (s = [] ∨ s = ['.'])).map
      fun s => if s = ['.', '.'] then parentComp else normalComp s)

/-- The order `PathBuf`'s `Ord` instance uses: lexicographic comparison of the
component sequences (components themselves compared as described at
`normalComp`).  This is the comparator of `file_map.sort_unstable_by` in
`contents` (`generate.rs`). -/
def pathLe (p q : Path) : Prop := pathComponents p ≤ pathComponents q

instance : DecidableRel pathLe := fun p q =>
  inferInstanceAs (Decidable (pathComponents p ≤ pathComponents q))

/-- Plain byte-wise lexicographic order on raw path strings (what the spec
calls "byte-wise comparison of the path strings"). -/
def byteLe (p q : Path) : Prop := p ≤ q

instance : DecidableRel byteLe := fun p q =>
  inferInstanceAs (Decidable (p ≤ q))

/-- `ContentsEntry` from `generate.rs`: the qualified package name
(`section/package`, possibly branch-qualified) and the data member's file
paths. -/
structure ContentsEntry where
  package : List Char
  files : List Path
deriving Repr, DecidableEq

/-- Ordering on flattened `(path, package)` records: by path only, exactly as
`file_map.sort_unstable_by(|a, b| a.0.cmp(&b.0))`. -/
def recordLe (a b : Path × List Char) : Prop := pathLe a.1 b.1

instance : DecidableRel recordLe := fun a b =>
  inferInstanceAs (Decidable (pathLe a.1 b.1))

/-- The flattening step of `contents`: every `ContentsEntry.files` element is
paired with its owning package, preserving entry order. -/
def flattenEntries (entries : List ContentsEntry) : List (Path × List Char) :=
  (entries.map fun e => e.files.map fun p => (p, e.package)).flatten

/-- `file_map` as built in `contents` (`generate.rs`): the flattened records,
sorted by path with the `PathBuf` comparator.  `sort_unstable_by` is modelled
by insertion sort with the same comparator (any correct comparison sort; the
comparator ignores the package, so order among equal paths is immaterial for
the duplicate scan below). -/
def fileMap (entries : List ContentsEntry) : List (Path × List Char) :=
  List.insertionSort recordLe (flattenEntries entries)

/-- The duplicate scan of `contents`:
`file_map.windows(2).position(|window| window[0] == window[1])` — note it
compares whole `(path, package)` pairs, and returns the first adjacent pair
of fully equal records. -/
def dupScan : List (Path × List Char) →
    Option ((Path × List Char) × (Path × List Char))
  | a :: b :: rest => if a = b then some (a, b) else dupScan (b :: rest)
  | _ => none

/-- The consistency-error message format of `contents`:
`format!("{} and {} both have {}", a.1, b.1, a.0.display())`. -/
def dupMessage (a b : Path × List Char) : List Char :=
  a.2 ++ " and ".toList ++ b.2 ++ " both have ".toList ++ a.1

/-- The merge/check stage of `contents`: build `file_map`, run the duplicate
scan, and either fail with the consistency error or hand the sorted records
on to serialization. -/
def contentsCheck (entries : List ContentsEntry) :
    Except (List Char) (List (Path × List Char)) :=
  let fm := fileMap entries
  match dupScan fm with
  | some (a, b) => .error (dupMessage a b)
  | none => .ok fm

/-- `ContentIterator::next` (`generate.rs`): serialize one record.  The code
unconditionally reads `&path[..2]` to test for a leading `./`, which panics
when the path has fewer than 2 bytes; the panic is modelled as `none`. -/
def contentLine (p : Path) (package : List Char) : Option (List Char) :=
  match p with
  | c0 :: c1 :: rest =>
    some ((if c0 = '.' ∧ c1 = '/' then rest else p) ++
      ' ' :: ' ' :: (package ++ ['\n']))
  | _ => none

/-- The line format as the spec words it: the record's path with a leading
`./` (if present) stripped, two literal spaces, the package name, and a
newline. -/
def contentLineSpec (p : Path) (package : List Char) : List Char :=
  (if p.take 2 = ['.', '/'] then p.drop 2 else p) ++
    "  ".toList ++ package ++ "\n".toList

/-- `ContentReader` state (`generate.rs`): the internal spill buffer and the
not-yet-pulled serialized chunks. -/
structure RState where
  buffer : List Char
  data : List (List Char)
deriving Repr, DecidableEq

/-- The refill loop of `ContentReader::read`:
`while self.buffer.len() < buf.len() { pull next chunk into buffer }`,
stopping when the chunk iterator is exhausted. -/
def refill (buffer : List Char) (n : Nat) :
    List (List Char) → List Char × List (List Char)
  | [] => (buffer, [])
  | c :: rest =>
    if buffer.length < n then refill (buffer ++ c) n rest
    else (buffer, c :: rest)

/-- `ContentReader::read` for a caller buffer of length `n`: refill only when
the internal buffer is empty; return 0 bytes when nothing could be pulled;
otherwise hand out `min (buffer length) n` bytes and keep the leftovers. -/
def readStep (n : Nat) (s : RState) : List Char × RState :=
  if s.buffer.isEmpty then
    let bd := refill s.buffer n s.data
    if bd.1.isEmpty then ([], ⟨bd.1, bd.2⟩)
    else
      let t := min bd.1.length n
      (bd.1.take t, ⟨bd.1.drop t, bd.2⟩)
  else
    let t := min s.buffer.length n
    (s.buffer.take t, ⟨s.buffer.drop t, s.data⟩)

/-- Repeatedly call `read` with the given sequence of caller-chosen buffer
sizes, concatenating the bytes produced. -/
def readMany (sizes : List Nat) (s : RState) : List Char × RState :=
  match sizes with
  | [] => ([], s)
  | n :: rest =>
    let os := readStep n s
    let rs := readMany rest os.2
    (os.1 ++ rs.1, rs.2)

/-- All bytes a `ContentReader` state can still produce. -/
def remaining (s : RState) : List Char := s.buffer ++ s.data.flatten

/-! ## `src/repo/download/request.rs` — the verified download routine

System-call failures (I/O errors, network failures) abort the routine by `?`
propagation in the source; the model's filesystem and network operations
always succeed, which is the fragment all claims below are about.  The
remote is modelled as a function from attempt number to the body that
attempt delivers; a body is characterized by its byte count, its SHA-256
digest (kept abstract as a string), and the timestamps the destination file
carries right after the body has been streamed into it. -/

/-- `RequestCompare` (`request.rs`): the integrity specification. -/
inductive RequestCompare where
  | Checksum (digest : Option String)
  | SizeAndModification (length : Nat) (mtime : Option Int)
deriving Repr, DecidableEq

/-- The destination file's observable state: size in bytes, content digest,
and access/modification times (seconds, `i64`; the `i64 → u64 → time_t`
round trip through `utime::set_file_times` is the identity, so times are
kept as integers). -/
structure LocalFile where
  size : Nat
  digest : String
  atime : Int
  mtime : Int
deriving Repr, DecidableEq

/-- One remote transfer's effect: `len` bytes are streamed into the
destination, whose digest then is `digest` and whose filesystem timestamps
right after the write are `atime`/`mtime`. -/
structure Body where
  len : Nat
  digest : String
  atime : Int
  mtime : Int
deriving Repr, DecidableEq

/-- The terminal error of `file`:
`io::Error::new(InvalidData, format!("checksum does not match for {}", path.display()))`. -/
inductive DlError where
  | integrity (path : String)
deriving Repr, DecidableEq

instance {ε α : Type} [DecidableEq ε] [DecidableEq α] : DecidableEq (Except ε α)
  | .ok a, .ok b => decidable_of_iff (a = b) (by simp)
  | .error a, .error b => decidable_of_iff (a = b) (by simp)
  | .ok _, .error _ => isFalse (by simp)
  | .error _, .ok _ => isFalse (by simp)

/-- Everything observable about one call of `file`: its return value, how
many transfers it performed, how many times it deleted the destination after
a digest mismatch, and the destination's final state. -/
structure Outcome where
  result : Except DlError Nat
  transfers : Nat
  deletes : Nat
  fs : Option LocalFile
deriving Repr, DecidableEq

/-- `const ATTEMPTS: u8 = 3` (`request.rs`). -/
def ATTEMPTS : Nat := 3

/-- The pre-transfer check of `file` on an existing destination
(`request.rs` lines 20-41): `requires_download` starts `true`; a matching
digest or a matching size (and, when an expected mtime is given, a matching
mtime) clears it.  `RequestCompare::Checksum(None)` falls into the `_ => ()`
arm and leaves it `true`. -/
def requiresDownload (compare : RequestCompare) (f : LocalFile) : Bool :=
  match compare with
  | .Checksum (some c) => if f.digest = c then false else true
  | .SizeAndModification length mtime =>
    if f.size = length then
      match mtime with
      | some m => if m = f.mtime then false else true
      | none => false
    else true
  | _ => true

/-- The retry loop of `file`, with `budget = ATTEMPTS - tries` (the loop
re-enters only after a digest mismatch, which deletes the file, so the next
iteration sees no destination).  Each iteration: pre-transfer check
(`Ok(0)` early return when no download is required), transfer of the next
body, then post-transfer verification exactly as in the source — digest
comparison with delete-and-retry (terminal integrity error once the budget
is exhausted), timestamp propagation for `SizeAndModification(_, Some(mtime))`
(set to `mtime` with the just-read access time preserved), plain success
otherwise. -/
def fileGo (compare : RequestCompare) (downloads : Nat → Body) (path : String) :
    Nat → Nat → Nat → Option LocalFile → Outcome
  | budget, transfers, deletes, fs =>
    let proceed : Bool :=
      match fs with
      | some f => requiresDownload compare f
      | none => true
    if proceed then
      let body := downloads transfers
      let f' : LocalFile := ⟨body.len, body.digest, body.atime, body.mtime⟩
      match compare with
      | .Checksum (some c) =>
        if body.digest = c then ⟨.ok body.len, transfers + 1, deletes, some f'⟩
        else
          match budget with
          | 0 => ⟨.error (.integrity path), transfers + 1, deletes + 1, none⟩
          | b + 1 => fileGo compare downloads path b (transfers + 1) (deletes + 1) none
      | .SizeAndModification _ (some m) =>
        ⟨.ok body.len, transfers + 1, deletes, some { f' with mtime := m }⟩
      | _ => ⟨.ok body.len, transfers + 1, deletes, some f'⟩
    else ⟨.ok 0, transfers, deletes, fs⟩

/-- `file` (`request.rs`): run the retry loop with `tries = 0` against the
destination's current state. -/
def file (compare : RequestCompare) (downloads : Nat → Body) (path : String)
    (fs : Option LocalFile) : Outcome :=
  fileGo compare downloads path ATTEMPTS 0 0 fs

/-! ## `src/config/mod.rs` — dotted-path configuration fetch/update -/

/-- `ConfigError` (`config/mod.rs`). -/
inductive ConfigError where
  | invalidKey
deriving Repr, DecidableEq

/-- `Update` (`config/mod.rs`). -/
structure UpdateRec where
  source : List Char
  url : List Char
  after : List Char
  before : List Char
  contains : Option (List Char)
  build_from : Option (List (List Char))
deriving Repr, DecidableEq

/-- `DirectPath` (`config/mod.rs`). -/
structure DirectPath where
  checksum : Option (List Char)
  arch : Option (List Char)
  name : Option (List Char)
  url : List Char
deriving Repr, DecidableEq

/-- `Direct` (`config/mod.rs`). -/
structure Direct where
  name : List Char
  version : List Char
  urls : List DirectPath
  checksum : Option (List Char)
  update : Option UpdateRec
deriving Repr, DecidableEq

/-- A source-built project record.  `Source` is defined in
`src/config/source.rs`, which is not part of the inspected sources; only its
`name` field matters here, because `Config::fetch`/`Config::update` never
consult the `source` collection at all (that is the point of the claim).
Modelled from the spec: a record of the `source` sub-collection identified
by its project name. -/
structure SourceRec where
  name : List Char
deriving Repr, DecidableEq

/-- `Config` (`config/mod.rs`). -/
structure Config where
  archive : List Char
  version : List Char
  origin : List Char
  label : List Char
  email : List Char
  direct : Option (List Direct)
  source : Option (List SourceRec)
deriving Repr, DecidableEq

/-- A fetched value.  `Cow::Borrowed` field references are `field`; the
`Cow::Owned(format!("{:#?}", …))` debug renderings are kept as the value
that would be rendered (the rendering itself is injective and never
inspected by any caller in the sources). -/
inductive FetchVal where
  | field (s : List Char)
  | debugDirects (d : Option (List Direct))
  | debugDirect (d : Direct)
  | debugUrls (u : List DirectPath)
deriving Repr, DecidableEq

/-- `key.split_at(key.find('.').unwrap_or(key.len()))`: split at the first
`.`; the second half keeps the dot. -/
def splitKey : List Char → List Char × List Char
  | [] => ([], [])
  | c :: rest =>
    if c = '.' then ([], c :: rest)
    else
      let ab := splitKey rest
      (c :: ab.1, ab.2)

/-- `str::starts_with` on byte strings. -/
def startsWith : List Char → List Char → Bool
  | [], _ => true
  | _ :: _, [] => false
  | p :: ps, c :: cs => if p = c then startsWith ps cs else false

/-- `Direct::fetch` (`config/mod.rs`). -/
def Direct.fetch (d : Direct) (key : List Char) : Option FetchVal :=
  if key = "name".toList then some (.field d.name)
  else if key = "version".toList then some (.field d.version)
  else if key = "urls".toList then some (.debugUrls d.urls)
  else none

/-- `Direct::update` (`config/mod.rs`). -/
def Direct.updateRec (d : Direct) (key : List Char) (value : List Char) :
    Except ConfigError Direct :=
  if key = "name".toList then .ok { d with name := value }
  else if key = "version".toList then .ok { d with version := value }
  else .error .invalidKey

/-- `direct.iter().find(|d| d.name.as_str() == direct_key)`. -/
def findDirect (ds : Option (List Direct)) (key : List Char) : Option Direct :=
  ds.bind fun l => l.find? fun d => decide (d.name = key)

/-- The body shared by the `direct.`-prefixed and `source.`-prefixed branches
of `Config::fetch`: strip the 7-byte prefix, split name from field, look the
name up in the `direct` collection (both branches do — the `source.` branch
reads `self.direct`), and dispatch on whether a field follows. -/
def fetchDirectBranch (c : Config) (key : List Char) : Option FetchVal :=
  let k := key.drop 7
  let df := splitKey k
  match findDirect c.direct df.1 with
  | some d => if 1 < df.2.length then d.fetch (df.2.drop 1) else some (.debugDirect d)
  | none => none

/-- `Config::fetch` (`config/mod.rs`). -/
def Config.fetch (c : Config) (key : List Char) : Option FetchVal :=
  if key = "archive".toList then some (.field c.archive)
  else if key = "version".toList then some (.field c.version)
  else if key = "origin".toList then some (.field c.origin)
  else if key = "label".toList then some (.field c.label)
  else if key = "email".toList then some (.field c.email)
  else if key = "direct".toList then some (.debugDirects c.direct)
  else if startsWith "direct.".toList key then fetchDirectBranch c key
  else if startsWith "source.".toList key then fetchDirectBranch c key
  else none

/-- In-place update through `direct.iter_mut().find(…)`: rewrite the first
record whose name matches, `Err(InvalidKey)` when none matches or no field
follows the name. -/
def updateDirectIn (dk : List Char) (df : List Char) (value : List Char) :
    List Direct → Except ConfigError (List Direct)
  | [] => .error .invalidKey
  | d :: rest =>
    if d.name = dk then
      if 1 < df.length then (d.updateRec (df.drop 1) value).map (· :: rest)
      else .error .invalidKey
    else (updateDirectIn dk df value rest).map (d :: ·)

/-- The body shared by the `direct.`-prefixed and `source.`-prefixed branches
of `Config::update` — again, both look up `self.direct`. -/
def updateDirectBranch (c : Config) (key : List Char) (value : List Char) :
    Except ConfigError Config :=
  let k := key.drop 7
  let df := splitKey k
  match c.direct with
  | some ds => (updateDirectIn df.1 df.2 value ds).map
      fun ds' => { c with direct := some ds' }
  | none => .error .invalidKey

/-- `Config::update` (`config/mod.rs`). -/
def Config.updateRec (c : Config) (key : List Char) (value : List Char) :
    Except ConfigError Config :=
  if key = "archive".toList then .ok { c with archive := value }
  else if key = "version".toList then .ok { c with version := value }
  else if key = "origin".toList then .ok { c with origin := value }
  else if key = "label".toList then .ok { c with label := value }
  else if key = "email".toList then .ok { c with email := value }
  else if startsWith "direct.".toList key then updateDirectBranch c key value
  else if startsWith "source.".toList key then updateDirectBranch c key value
  else .error .invalidKey

end Debrep

namespace Debrep

/-! ## Theorems -/

/-- Claim C10: `ContentIterator::next` reads `&path[..2]` unconditionally, so
serialization of a record is total exactly when the record's path is at
least 2 bytes long; any shorter path makes it panic (modelled as `none`). -/
theorem contentLine_isSome_iff_two_bytes (p : Path) (k : List Char) :
    (contentLine p k).isSome ↔ 2 ≤ p.length := by
  match p with
  | [] => simp [contentLine]
  | [c] => simp [contentLine]
  | a :: b :: r => simp [contentLine]

/-- Claim C5: for every record whose path is long enough to serialize, the
output line is exactly the path with a leading `./` (if present) stripped,
two literal spaces, the package name, and a newline; in particular the
record `(usr/bin/atom, editors/atom-editor)` serializes to exactly
`usr/bin/atom  editors/atom-editor\n`. -/
theorem contentLine_eq_spec (p : Path) (k : List Char) (h : 2 ≤ p.length) :
    contentLine p k = some (contentLineSpec p k) ∧
    contentLine "usr/bin/atom".toList "editors/atom-editor".toList =
      some "usr/bin/atom  editors/atom-editor\n".toList := by
  refine ⟨?_, by decide⟩
  match p with
  | a :: b :: r =>
    by_cases hab : a = '.' ∧ b = '/' <;>
      simp_all [contentLine, contentLineSpec]

theorem contentLine_eq_spec_witness :
    contentLine "./ab".toList "s/p".toList =
      some (contentLineSpec "./ab".toList "s/p".toList) :=
  (contentLine_eq_spec "./ab".toList "s/p".toList (by decide)).1

/-- Claim C1 (code evaluation): two archives owning the same path under
different package names pass the duplicate scan — the build succeeds and
emits both records, because the scan compares whole `(path, package)` pairs
instead of paths; the same archives with disjoint file sets also succeed. -/
theorem dup_path_distinct_packages_not_detected :
    contentsCheck
        [⟨"a/p1".toList, ["usr/bin/x".toList]⟩,
          ⟨"a/p2".toList, ["usr/bin/x".toList]⟩] =
      .ok [("usr/bin/x".toList, "a/p1".toList),
        ("usr/bin/x".toList, "a/p2".toList)] ∧
    contentsCheck
        [⟨"a/p1".toList, ["usr/bin/x".toList]⟩,
          ⟨"a/p2".toList, ["usr/bin/y".toList]⟩] =
      .ok [("usr/bin/x".toList, "a/p1".toList),
        ("usr/bin/y".toList, "a/p2".toList)] := by
  decide

/-- Claim C4 (counterexample): the merged sequence is not byte-wise sorted —
for the pool owning `a/b` and `a!b`, the sort (which uses `PathBuf`'s
component-wise order) puts `a/b` first, yet `a/b` is byte-wise greater than
`a!b` (`/` is 0x2F, `!` is 0x21). -/
theorem fileMap_not_bytewise_sorted_cex :
    fileMap [⟨"pkg1".toList, ["a/b".toList]⟩, ⟨"pkg2".toList, ["a!b".toList]⟩] =
      [("a/b".toList, "pkg1".toList), ("a!b".toList, "pkg2".toList)] ∧
    ¬ byteLe "a/b".toList "a!b".toList := by
  decide

/-- Claim C4 (amended): the merged sequence is sorted by path under the
comparator the code actually uses — `PathBuf`'s total order, which compares
paths component-wise (normal components byte-wise) — so every earlier
record's path is `pathLe` the later one's. -/
theorem fileMap_sorted_by_path_order (entries : List ContentsEntry) :
    List.Sorted recordLe (fileMap entries) := by
  haveI : IsTotal (Path × List Char) recordLe :=
    ⟨fun a b => le_total (pathComponents a.1) (pathComponents b.1)⟩
  haveI : IsTrans (Path × List Char) recordLe :=
    ⟨fun _ _ _ h1 h2 => le_trans h1 h2⟩
  exact List.sorted_insertionSort recordLe _

/-- Claim C3 (counterexample): with `Checksum(None)` and an existing
destination, `file` performs one transfer and returns its byte count (5),
not zero transfers and 0 bytes. -/
theorem checksum_none_redownloads_cex :
    (file (.Checksum none) (fun _ => ⟨5, "bb", 0, 0⟩) "dest"
        (some ⟨9, "zz", 3, 4⟩)).transfers = 1 ∧
    (file (.Checksum none) (fun _ => ⟨5, "bb", 0, 0⟩) "dest"
        (some ⟨9, "zz", 3, 4⟩)).result = .ok 5 := by
  decide

/-- Claim C3 (amended): with integrity spec `Checksum(None)` and an existing
destination file, `file` always re-downloads: the `_ => ()` arm of the
pre-transfer check leaves `requires_download = true`, so exactly one
transfer happens and its byte count is returned. -/
theorem checksum_none_redownloads (f : LocalFile) (dl : Nat → Body)
    (path : String) :
    file (.Checksum none) dl path (some f) =
      ⟨.ok (dl 0).len, 1, 0,
        some ⟨(dl 0).len, (dl 0).digest, (dl 0).atime, (dl 0).mtime⟩⟩ := by
  simp [file, fileGo, requiresDownload, ATTEMPTS]

/-- Claim C2 (counterexample): with a digest that never matches, `file`
performs 4 transfers (not 3) before terminating with the integrity error. -/
theorem checksum_retry_four_transfers_cex :
    (file (.Checksum (some "aa")) (fun _ => ⟨5, "bb", 0, 0⟩) "dest"
        none).transfers = 4 ∧
    (file (.Checksum (some "aa")) (fun _ => ⟨5, "bb", 0, 0⟩) "dest"
        none).result = .error (.integrity "dest") := by
  decide

end Debrep

namespace Debrep

/-- Claim C2 (amended): for a destination whose downloaded content never
matches the expected digest, `file` performs exactly 4 transfer attempts
(the initial attempt plus the retry budget `ATTEMPTS = 3`), deletes the
destination after each of the 4 mismatches, and returns the integrity error
naming the destination; if the content matches on the 2nd attempt, it
returns `Ok` with that attempt's byte count after a single deletion. -/
theorem checksum_retry_budget (c path : String) (fs0 : Option LocalFile)
    (dl1 dl2 : Nat → Body)
    (hfs : ∀ f, fs0 = some f → f.digest ≠ c)
    (h1 : ∀ i, (dl1 i).digest ≠ c)
    (h2 : (dl2 0).digest ≠ c) (h3 : (dl2 1).digest = c) :
    file (.Checksum (some c)) dl1 path fs0 =
      ⟨.error (.integrity path), 4, 4, none⟩ ∧
    file (.Checksum (some c)) dl2 path fs0 =
      ⟨.ok (dl2 1).len, 2, 1,
        some ⟨(dl2 1).len, (dl2 1).digest, (dl2 1).atime, (dl2 1).mtime⟩⟩ := by
  constructor
  · rcases fs0 with _ | f
    · simp [file, fileGo, ATTEMPTS, requiresDownload,
        if_neg (h1 0), if_neg (h1 1), if_neg (h1 2), if_neg (h1 3)]
    · simp [file, fileGo, ATTEMPTS, requiresDownload, if_neg (hfs f rfl),
        if_neg (h1 0), if_neg (h1 1), if_neg (h1 2), if_neg (h1 3)]
  · rcases fs0 with _ | f
    · simp [file, fileGo, ATTEMPTS, requiresDownload, if_neg h2, if_pos h3]
    · simp [file, fileGo, ATTEMPTS, requiresDownload, if_neg (hfs f rfl),
        if_neg h2, if_pos h3]

theorem checksum_retry_budget_witness :
    file (.Checksum (some "aa")) (fun _ => ⟨5, "bb", 0, 0⟩) "dest" none =
      ⟨.error (.integrity "dest"), 4, 4, none⟩ ∧
    file (.Checksum (some "aa"))
        (fun i => if i = 0 then ⟨5, "bb", 0, 0⟩ else ⟨7, "aa", 1, 2⟩) "dest" none =
      ⟨.ok 7, 2, 1, some ⟨7, "aa", 1, 2⟩⟩ :=
  ⟨(checksum_retry_budget "aa" "dest" none (fun _ => ⟨5, "bb", 0, 0⟩)
      (fun i => if i = 0 then ⟨5, "bb", 0, 0⟩ else ⟨7, "aa", 1, 2⟩)
      (fun f hf => by cases hf) (fun i => by simp) (by simp) (by simp)).1,
    (checksum_retry_budget "aa" "dest" none (fun _ => ⟨5, "bb", 0, 0⟩)
      (fun i => if i = 0 then ⟨5, "bb", 0, 0⟩ else ⟨7, "aa", 1, 2⟩)
      (fun f hf => by cases hf) (fun i => by simp) (by simp) (by simp)).2⟩

/-- Claim C7: with spec `SizeAndModification(length, mtime)` and an existing
destination, no download is required exactly when the local size equals
`length` and the expected modification time is absent or equals the local
one; in that case `file` returns 0 having transferred nothing, otherwise it
transfers; with no local file it always transfers. -/
theorem sizeAndModification_skip_iff (L : Nat) (mt : Option Int)
    (f : LocalFile) (dl : Nat → Body) (path : String) :
    (requiresDownload (.SizeAndModification L mt) f = false ↔
      (f.size = L ∧ (mt = none ∨ mt = some f.mtime)))
    ∧ (requiresDownload (.SizeAndModification L mt) f = false →
        file (.SizeAndModification L mt) dl path (some f) = ⟨.ok 0, 0, 0, some f⟩)
    ∧ (requiresDownload (.SizeAndModification L mt) f = true →
        1 ≤ (file (.SizeAndModification L mt) dl path (some f)).transfers)
    ∧ 1 ≤ (file (.SizeAndModification L mt) dl path none).transfers := by
  refine ⟨?_, fun h => ?_, fun h => ?_, ?_⟩
  · rcases mt with _ | m
    · by_cases hs : f.size = L <;> simp [requiresDownload, hs]
    · by_cases hs : f.size = L <;> by_cases hm : m = f.mtime <;>
        simp_all [requiresDownload]
  · rcases mt with _ | m <;> simp [file, fileGo, h]
  · rcases mt with _ | m <;> simp [file, fileGo, h, ATTEMPTS]
  · rcases mt with _ | m <;> simp [file, fileGo, ATTEMPTS]

theorem sizeAndModification_skip_iff_witness :
    file (.SizeAndModification 9 (some 4)) (fun _ => ⟨5, "bb", 0, 0⟩) "d"
        (some ⟨9, "zz", 3, 4⟩) = ⟨.ok 0, 0, 0, some ⟨9, "zz", 3, 4⟩⟩ :=
  (sizeAndModification_skip_iff 9 (some 4) ⟨9, "zz", 3, 4⟩
    (fun _ => ⟨5, "bb", 0, 0⟩) "d").2.1 (by decide)

/-- Claim C8: for spec `SizeAndModification(_, Some(mtime))`, whenever a
transfer happens (always when no local file exists, and whenever the
pre-transfer check demands one), `file` sets the destination's modification
time to exactly `mtime`, preserves the access time read immediately before
the timestamp update (the one the file carries right after the write), and
returns the transferred byte count. -/
theorem sizeAndModification_mtime_propagation (L : Nat) (m : Int)
    (dl : Nat → Body) (path : String) (fs0 : Option LocalFile)
    (h : ∀ f, fs0 = some f →
      requiresDownload (.SizeAndModification L (some m)) f = true) :
    file (.SizeAndModification L (some m)) dl path fs0 =
      ⟨.ok (dl 0).len, 1, 0,
        some ⟨(dl 0).len, (dl 0).digest, (dl 0).atime, m⟩⟩ := by
  rcases fs0 with _ | f
  · simp [file, fileGo, ATTEMPTS]
  · simp [file, fileGo, ATTEMPTS, h f rfl]

theorem sizeAndModification_mtime_propagation_witness :
    file (.SizeAndModification 9 (some 7)) (fun _ => ⟨5, "bb", 10, 20⟩) "d"
        none = ⟨.ok 5, 1, 0, some ⟨5, "bb", 10, 7⟩⟩ :=
  sizeAndModification_mtime_propagation 9 7 (fun _ => ⟨5, "bb", 10, 20⟩) "d"
    none (fun f hf => by cases hf)

end Debrep

namespace Debrep

theorem splitKey_no_dot (name : List Char) (h : '.' ∉ name) :
    splitKey name = (name, []) := by
  induction name with
  | nil => rfl
  | cons c rest ih =>
    have hc : ¬ c = '.' := fun e => h (by simp [e])
    simp [splitKey, hc, ih (fun hm => h (List.mem_cons_of_mem _ hm))]

theorem splitKey_append_dot (name fld : List Char) (h : '.' ∉ name) :
    splitKey (name ++ '.' :: fld) = (name, '.' :: fld) := by
  induction name with
  | nil => simp [splitKey]
  | cons c rest ih =>
    have hc : ¬ c = '.' := fun e => h (by simp [e])
    simp [splitKey, hc, ih (fun hm => h (List.mem_cons_of_mem _ hm))]

theorem updateDirectIn_not_found (dk df v : List Char) (ds : List Direct)
    (h : ∀ d ∈ ds, d.name ≠ dk) :
    updateDirectIn dk df v ds = .error .invalidKey := by
  induction ds with
  | nil => rfl
  | cons d rest ih =>
    simp [updateDirectIn, Except.map, h d (by simp),
      ih (fun d' hm => h d' (List.mem_cons_of_mem _ hm))]

/-- Claim C9: for every key of the form `source.<name>` or
`source.<name>.<field>`, `Config::fetch` and `Config::update` resolve
`<name>` against the `direct` sub-collection (they behave exactly like the
corresponding `direct.`-prefixed key), so a project present only in the
`source` collection yields `none` from fetch and `InvalidKey` from
update. -/
theorem source_keys_resolve_against_direct (c : Config) (name fld v : List Char)
    (hdot : '.' ∉ name)
    (hsrc : ∃ s ∈ c.source.getD [], s.name = name)
    (hdir : ∀ d ∈ c.direct.getD [], d.name ≠ name) :
    (∀ k, c.fetch ("source.".toList ++ k) = c.fetch ("direct.".toList ++ k)) ∧
    (∀ k w, c.updateRec ("source.".toList ++ k) w =
      c.updateRec ("direct.".toList ++ k) w) ∧
    c.fetch ("source.".toList ++ name) = none ∧
    c.fetch ("source.".toList ++ (name ++ '.' :: fld)) = none ∧
    c.updateRec ("source.".toList ++ name) v = .error .invalidKey ∧
    c.updateRec ("source.".toList ++ (name ++ '.' :: fld)) v =
      .error .invalidKey := by
  have hfind : findDirect c.direct name = none := by
    cases hcd : c.direct with
    | none => rfl
    | some ds =>
      simp only [findDirect, Option.bind]
      apply List.find?_eq_none.mpr
      intro d hdm
      simpa using hdir d (by simp [hcd, hdm])
  refine ⟨fun k => ?_, fun k w => ?_, ?_, ?_, ?_, ?_⟩
  · simp [Config.fetch, startsWith, fetchDirectBranch]
  · simp [Config.updateRec, startsWith, updateDirectBranch]
  · simp [Config.fetch, startsWith, fetchDirectBranch,
      splitKey_no_dot name hdot, hfind]
  · simp [Config.fetch, startsWith, fetchDirectBranch,
      splitKey_append_dot name fld hdot, hfind]
  · cases hcd : c.direct with
    | none => simp [Config.updateRec, startsWith, updateDirectBranch, hcd]
    | some ds =>
      have : ∀ d ∈ ds, d.name ≠ name := fun d hm => hdir d (by simp [hcd, hm])
      simp [Config.updateRec, startsWith, updateDirectBranch, Except.map, hcd,
        splitKey_no_dot name hdot, updateDirectIn_not_found name [] v ds this]
  · cases hcd : c.direct with
    | none => simp [Config.updateRec, startsWith, updateDirectBranch, hcd]
    | some ds =>
      have : ∀ d ∈ ds, d.name ≠ name := fun d hm => hdir d (by simp [hcd, hm])
      simp [Config.updateRec, startsWith, updateDirectBranch, Except.map, hcd,
        splitKey_append_dot name fld hdot,
        updateDirectIn_not_found name ('.' :: fld) v ds this]

theorem source_keys_resolve_against_direct_witness :
    (⟨"b".toList, "1".toList, "o".toList, "l".toList, "e".toList,
      some [⟨"atom".toList, "1.0".toList, [], none, none⟩],
      some [⟨"proj".toList⟩]⟩ : Config).fetch
        ("source.".toList ++ "proj".toList) = none ∧
    (⟨"b".toList, "1".toList, "o".toList, "l".toList, "e".toList,
      some [⟨"atom".toList, "1.0".toList, [], none, none⟩],
      some [⟨"proj".toList⟩]⟩ : Config).updateRec
        ("source.".toList ++ ("proj".toList ++ '.' :: "version".toList))
        "2".toList = .error .invalidKey :=
  ⟨(source_keys_resolve_against_direct _ "proj".toList "version".toList
      "2".toList (by decide) (by decide) (by decide)).2.2.1,
    (source_keys_resolve_against_direct _ "proj".toList "version".toList
      "2".toList (by decide) (by decide) (by decide)).2.2.2.2.2⟩

end Debrep

namespace Debrep

theorem refill_decomp (n : Nat) :
    ∀ (d : List (List Char)) (b : List Char),
      (refill b n d).1 ++ (refill b n d).2.flatten = b ++ d.flatten := by
  intro d
  induction d with
  | nil => intro b; simp [refill]
  | cons c rest ih =>
    intro b
    by_cases h : b.length < n
    · simp [refill, h, ih (b ++ c)]
    · simp [refill, h]

theorem refill_ne_nil (n : Nat) (hn : 1 ≤ n) :
    ∀ (d : List (List Char)) (b : List Char),
      (refill b n d).1 ++ (refill b n d).2.flatten ≠ [] →
      (refill b n d).1 ≠ [] := by
  intro d
  induction d with
  | nil => intro b h; simpa [refill] using h
  | cons c rest ih =>
    intro b h
    by_cases hb : b.length < n
    · rw [refill, if_pos hb] at h ⊢
      exact ih (b ++ c) h
    · rw [refill, if_neg hb]
      have : 1 ≤ b.length := le_trans hn (Nat.le_of_not_lt hb)
      exact List.ne_nil_of_length_pos this

theorem readStep_decomp (n : Nat) (s : RState) :
    (readStep n s).1 ++ remaining (readStep n s).2 = remaining s := by
  by_cases hb : s.buffer.isEmpty
  · by_cases hr : (refill s.buffer n s.data).1.isEmpty
    · simp only [readStep, hb, if_pos, hr, if_true, remaining, List.nil_append]
      exact refill_decomp n s.data s.buffer
    · simp only [readStep, hb, if_true, hr, if_false, remaining, Bool.false_eq_true]
      rw [← List.append_assoc, List.take_append_drop]
      exact refill_decomp n s.data s.buffer
  · simp only [readStep, hb, if_false, remaining, Bool.false_eq_true]
    rw [← List.append_assoc, List.take_append_drop]

theorem readStep_progress (n : Nat) (s : RState) (hn : 1 ≤ n)
    (h : remaining s ≠ []) : (readStep n s).1 ≠ [] := by
  by_cases hb : s.buffer.isEmpty
  · have hbe : s.buffer = [] := List.isEmpty_iff.mp hb
    have hne : (refill s.buffer n s.data).1 ++
        (refill s.buffer n s.data).2.flatten ≠ [] := by
      rw [refill_decomp n s.data s.buffer]
      simpa [remaining] using h
    have h1 := refill_ne_nil n hn s.data s.buffer hne
    have hr : (refill s.buffer n s.data).1.isEmpty = false :=
      by simpa [List.isEmpty_iff] using h1
    simp only [readStep, hb, if_true, hr, Bool.false_eq_true, if_false]
    have hlen : 1 ≤ (refill s.buffer n s.data).1.length :=
      List.length_pos.mpr h1
    simp only [ne_eq, List.take_eq_nil_iff]
    push_neg
    constructor
    · omega
    · exact h1
  · simp only [readStep, hb, Bool.false_eq_true, if_false]
    have h1 : s.buffer ≠ [] := fun e => hb (by simp [e])
    have hlen : 1 ≤ s.buffer.length := List.length_pos.mpr h1
    simp only [ne_eq, List.take_eq_nil_iff]
    push_neg
    constructor
    · omega
    · exact h1

theorem readMany_decomp :
    ∀ (sizes : List Nat) (s : RState),
      (readMany sizes s).1 ++ remaining (readMany sizes s).2 = remaining s := by
  intro sizes
  induction sizes with
  | nil => intro s; simp [readMany]
  | cons n rest ih =>
    intro s
    simp only [readMany, List.append_assoc]
    rw [ih (readStep n s).2]
    exact readStep_decomp n s

theorem readMany_all :
    ∀ (sizes : List Nat) (s : RState), (∀ n ∈ sizes, 1 ≤ n) →
      (remaining s).length ≤ sizes.length →
      (readMany sizes s).1 = remaining s := by
  intro sizes
  induction sizes with
  | nil =>
    intro s _ h2
    have h0 : remaining s = [] :=
      List.eq_nil_of_length_eq_zero (Nat.le_zero.mp h2)
    simp [readMany, h0]
  | cons n rest ih =>
    intro s hall hlen
    have hd := readStep_decomp n s
    by_cases hrem : remaining s = []
    · rw [hrem] at hd
      have ho : (readStep n s).1 = [] := (List.append_eq_nil.mp hd).1
      have hs' : remaining (readStep n s).2 = [] := (List.append_eq_nil.mp hd).2
      have := ih (readStep n s).2 (fun m hm => hall m (by simp [hm]))
        (by rw [hs']; simp)
      simp only [readMany]
      rw [this, ho, hs', hrem]
      rfl
    · have ho := readStep_progress n s (hall n (by simp)) hrem
      have holen : 1 ≤ (readStep n s).1.length := List.length_pos.mpr ho
      have hlens := congrArg List.length hd
      rw [List.length_append] at hlens
      have hlen' : (remaining (readStep n s).2).length ≤ rest.length := by
        simp only [List.length_cons] at hlen
        omega
      simp only [readMany]
      rw [ih (readStep n s).2 (fun m hm => hall m (by simp [hm])) hlen']
      exact hd

/-- Claim C6: feeding any finite sequence of serialized records into a
`ContentReader` and reading with any sequence of caller-chosen chunk sizes
(each at least 1, and enough reads to exhaust the stream — each successful
read yields at least one byte) produces exactly the concatenation of all
records; in particular two different chunk-size schedules produce
byte-identical output, and afterwards the stream is exhausted. -/
theorem contentReader_chunking_independent (records : List (List Char))
    (sizes sizes' : List Nat)
    (h1 : ∀ n ∈ sizes, 1 ≤ n) (h1' : ∀ n ∈ sizes', 1 ≤ n)
    (h2 : records.flatten.length ≤ sizes.length)
    (h2' : records.flatten.length ≤ sizes'.length) :
    (readMany sizes ⟨[], records⟩).1 = records.flatten ∧
    (readMany sizes ⟨[], records⟩).1 = (readMany sizes' ⟨[], records⟩).1 ∧
    remaining (readMany sizes ⟨[], records⟩).2 = [] := by
  have e1 : (readMany sizes ⟨[], records⟩).1 = records.flatten := by
    have := readMany_all sizes ⟨[], records⟩ h1 (by simpa [remaining] using h2)
    simpa [remaining] using this
  have e2 : (readMany sizes' ⟨[], records⟩).1 = records.flatten := by
    have := readMany_all sizes' ⟨[], records⟩ h1' (by simpa [remaining] using h2')
    simpa [remaining] using this
  refine ⟨e1, by rw [e1, e2], ?_⟩
  have hdec := readMany_decomp sizes ⟨[], records⟩
  rw [e1] at hdec
  have : remaining (⟨[], records⟩ : RState) = records.flatten := by
    simp [remaining]
  rw [this] at hdec
  have := congrArg List.length hdec
  rw [List.length_append] at this
  have hz : (remaining (readMany sizes ⟨[], records⟩).2).length = 0 := by omega
  exact List.eq_nil_of_length_eq_zero hz

theorem contentReader_chunking_independent_witness :
    (readMany [1, 17, 65536, 1, 1, 1] ⟨[], ["ab\n".toList, "cd\n".toList]⟩).1 =
      ("ab\n".toList ++ ("cd\n".toList ++ [])) ∧
    (readMany [1, 17, 65536, 1, 1, 1] ⟨[], ["ab\n".toList, "cd\n".toList]⟩).1 =
      (readMany [2, 2, 2, 2, 2, 2] ⟨[], ["ab\n".toList, "cd\n".toList]⟩).1 ∧
    remaining
      (readMany [1, 17, 65536, 1, 1, 1]
        ⟨[], ["ab\n".toList, "cd\n".toList]⟩).2 = [] :=
  contentReader_chunking_independent ["ab\n".toList, "cd\n".toList]
    [1, 17, 65536, 1, 1, 1] [2, 2, 2, 2, 2, 2]
    (by decide) (by decide) (by decide) (by decide)

end Debrep
